import Mathlib

/-!
Verification development for the Customer Feedback Insights dashboard
(src/app.py).  The file gives a shallow embedding of the core logic of the
script — schema normalization, the two filter paths (the SQL aggregation
path and the pandas negative-insight path), the KPI aggregation, the
negative-insight slice/sort/tokenize/keyword pipeline and the two CSV
exports — and proves or refutes the specified properties about them.

Conventions of the embedding:
* timestamps (`created_at`) are modelled as integer seconds since an epoch;
  a calendar day is `Int.fdiv t 86400` (the floor division matches the
  strftime day projection for negative times as well);
* ratings and rating averages are exact rationals (the source works with
  floats; all claims considered here are exact);
* pandas tables are lists of rows, boolean masks are `List.filter`;
* pandas multi-key `sort_values` (three of the four negative-slice sort
  modes) routes through a stable lexsort and is embedded with the stable
  `List.insertionSort`; the single-key most-recent mode runs the pandas
  default `kind=quicksort`, which is not stable, so it is modelled only by
  the guarantee that sort gives — a sorted permutation (`isSortResult`) —
  with the order of tied rows left undetermined, as in the source.
-/

attribute [local semireducible] Rat.add Rat.mul Rat.inv Rat.sub

namespace CFI

/-! ### Character and string helpers -/

/-- The apostrophe character (ASCII 39), part of the token character class
`[A-Za-z']` used by the tokenizer in src/app.py line 277. -/
def aposC : Char := Char.ofNat 39

/-- ASCII lowercasing of a character list; models Python `str.lower` on the
ASCII inputs relevant here. -/
def lowerL (cs : List Char) : List Char := cs.map Char.toLower

/-- ASCII lowercasing of a string; models Python `str.lower` /
`c.lower()` on column names (src/app.py line 69). -/
def strLower (s : String) : String := String.mk (lowerL s.data)

/-- Strip leading and trailing whitespace from a character list; models
Python `str.strip()` (src/app.py lines 236-237). -/
def trimChars (cs : List Char) : List Char :=
  ((cs.dropWhile Char.isWhitespace).reverse.dropWhile Char.isWhitespace).reverse

/-! ### Data model -/

/-- One row of the canonical table after normalization (src/app.py
`load_data`): parsed timestamp, product label, numeric rating, free text.
The derived `created_at_date` and `month` columns are projections of
`created_at` and are recomputed where needed. -/
structure Row where
  created_at : ℤ
  product : String
  rating : ℚ
  review_text : String
deriving DecidableEq

/-- The filter parameters read from the UI on one render cycle:
selected products (empty list = no product clause, src/app.py line 130),
optional inclusive date range as day numbers, the negative-rating
threshold and the keyword filter text. -/
structure FilterSpec where
  products : List String
  dates : Option (ℤ × ℤ)
  negThreshold : ℚ
  keyword : String

/-! ### Filter predicates -/

/-- Product membership clause, identical in both paths
(src/app.py lines 130-133 and 227-228): no products selected means the
clause is omitted. -/
def productOk (spec : FilterSpec) (r : Row) : Bool :=
  spec.products.isEmpty || spec.products.contains r.product

/-- Date clause of the SQL aggregation path (src/app.py lines 135-139):
`date(created_at_date) BETWEEN date(start) AND date(end)` — the comparison
is at calendar-day granularity and inclusive on both ends, because the
precomputed `created_at_date` column is the day projection of the
timestamp. -/
def dateOkSql (spec : FilterSpec) (r : Row) : Bool :=
  match spec.dates with
  | none => true
  | some (s, e) =>
      decide (s ≤ Int.fdiv r.created_at 86400) && decide (Int.fdiv r.created_at 86400 ≤ e)

/-- Date clause of the pandas negative-insight path (src/app.py lines
229-232): `df.created_at.between(to_datetime(start), to_datetime(end))`.
`pd.to_datetime` of a date gives midnight of that day, so the inclusive
upper bound is the first second of the end day, not its last. -/
def dateOkMask (spec : FilterSpec) (r : Row) : Bool :=
  match spec.dates with
  | none => true
  | some (s, e) =>
      decide (s * 86400 ≤ r.created_at) && decide (r.created_at ≤ e * 86400)

/-- Character match for the embedded regular-expression fragment: a dot in
the pattern matches any character, anything else matches literally.  Both
pattern and text are lowercased by the caller, which models the
`case=False` (IGNORECASE) flag for patterns built from letters and
metacharacters such as the dot. -/
def charMatch (p c : Char) : Bool := p == '.' || p == c

/-- Does the pattern match a prefix of the text?  Models Python `re` for
patterns consisting only of literal characters and the `.` metacharacter —
the fragment exercised by the inputs considered here.  The source passes
the raw user keyword to `Series.str.contains`, whose default is
`regex=True` (src/app.py line 237). -/
def matchHere : List Char → List Char → Bool
  | [], _ => true
  | _ :: _, [] => false
  | p :: ps, c :: cs => charMatch p c && matchHere ps cs

/-- `re.search` over the fragment: the pattern may match at any position. -/
def reSearch : List Char → List Char → Bool
  | ps, [] => matchHere ps []
  | ps, c :: cs => matchHere ps (c :: cs) || reSearch ps cs

/-- The keyword clause as the code computes it (src/app.py lines 236-237):
if the stripped keyword is nonempty, keep rows whose `review_text` matches
it via `str.contains(..., case=False)` — which interprets the keyword as a
regular expression. -/
def keywordOk (kw text : String) : Bool :=
  trimChars kw.data == [] || reSearch (lowerL (trimChars kw.data)) (lowerL text.data)

/-- Literal (non-regex) prefix match of a pattern against a text. -/
def litHere : List Char → List Char → Bool
  | [], _ => true
  | _ :: _, [] => false
  | p :: ps, c :: cs => p == c && litHere ps cs

/-- Literal substring search. -/
def litSearch : List Char → List Char → Bool
  | ps, [] => litHere ps []
  | ps, c :: cs => litHere ps (c :: cs) || litSearch ps cs

/-- Modelled from the spec: plain case-insensitive substring containment,
with no pattern interpretation of the keyword — the behaviour section 4.2
of the spec ascribes to the keyword filter.  Used only to compare the
actual (regex) behaviour against the specified one. -/
def substrContainsCI (pat s : String) : Bool :=
  litSearch (lowerL pat.data) (lowerL s.data)

/-- The full row mask of the negative-insight path (src/app.py lines
226-237): product, date, rating-threshold and keyword clauses conjoined. -/
def maskPred (spec : FilterSpec) (r : Row) : Bool :=
  productOk spec r && dateOkMask spec r &&
    decide (r.rating ≤ spec.negThreshold) && keywordOk spec.keyword r.review_text

/-- The WHERE clause of the aggregation queries (src/app.py lines
127-141): product and date clauses only. -/
def aggPred (spec : FilterSpec) (r : Row) : Bool :=
  productOk spec r && dateOkSql spec r

/-! ### KPI aggregation (src/app.py lines 144-154) -/

/-- Round to two decimal places; models SQLite `ROUND(x, 2)` on the exact
rationals used by the embedding. -/
def round2 (q : ℚ) : ℚ := (round (q * 100) : ℤ) / 100

/-- Result set of the KPI query `SELECT COUNT(*), ROUND(AVG(rating), 2)
FROM feedback WHERE ...`.  An aggregate query always returns exactly one
row; `AVG` over an empty selection is NULL (`none`), and `ROUND` of NULL
is NULL. -/
def kpiQuery (table : List Row) (spec : FilterSpec) : List (ℕ × Option ℚ) :=
  let sel := table.filter (aggPred spec)
  [(sel.length,
    if sel.length = 0 then none
    else some (round2 ((sel.map Row.rating).sum / (sel.length : ℚ))))]

/-- The Total Tickets metric as displayed (src/app.py line 153):
`int(kpi.iloc[0].total_tickets) if not kpi.empty else 0`. -/
def displayedTotal (table : List Row) (spec : FilterSpec) : ℕ :=
  match kpiQuery table spec with
  | [] => 0
  | x :: _ => x.1

/-- The Average Rating metric as displayed (src/app.py line 154):
`float(kpi.iloc[0].avg_rating) if not kpi.empty else 0.0`.  The `some 0`
branch is the `else 0.0` fallback, taken only when the result set is
empty; `none` stands for the NULL average, which `float(...)` turns into
NaN or a conversion error, not into `0.0`. -/
def displayedAvg (table : List Row) (spec : FilterSpec) : Option ℚ :=
  match kpiQuery table spec with
  | [] => some 0
  | x :: _ => x.2

/-! ### Exports (src/app.py lines 328-371) -/

/-- The negative-slice export (src/app.py lines 328-332): whatever table
the negative path produced is re-filtered by `rating <= neg_threshold`
before serialization.  (`pd.to_numeric` on the already numeric rating
column is the identity.) -/
def negExportRows (neg : List Row) (th : ℚ) : List Row :=
  neg.filter (fun r => decide (r.rating ≤ th))

/-- The full filtered slice export (src/app.py lines 348-355): the
canonical table re-filtered by the product and date clauses only.  The
subsequent cleanup (date rendering, month formatting, dropping the helper
column) does not change which rows are exported or their ratings. -/
def fullExportRows (table : List Row) (spec : FilterSpec) : List Row :=
  table.filter (fun r => productOk spec r && dateOkMask spec r)

/-! ### Normalizer row dropping (src/app.py lines 82-92) -/

/-- A row of the raw input after the two type coercions: the timestamp and
rating parses are `errors="coerce"`, so failures appear as `none` instead
of raising.  The parsers themselves (`pd.to_datetime`, `pd.to_numeric`)
are library externals; the embedding starts from their possibly-null
results. -/
structure ParsedRow where
  created_at : Option ℤ
  product : String
  rating : Option ℚ
  review_text : String
deriving DecidableEq

/-- `df.dropna(subset=["created_at", "rating"])` (src/app.py line 91). -/
def dropUnusable (l : List ParsedRow) : List ParsedRow :=
  l.filter (fun r => r.created_at.isSome && r.rating.isSome)

/-! ### Column-name normalization (src/app.py lines 62-80) -/

/-- The built-in header alias table.  The source stores each candidate set
as a Python set, whose iteration order is unspecified; the candidates are
listed here in their textual order.  Theorems that touch alias lookup
assume a unique matching alias, so the iteration order is immaterial. -/
def aliasList : List (String × List String) :=
  [("created_at", ["created_at", "date", "timestamp", "created", "submitted_at"]),
   ("product", ["product", "category", "service", "queue", "team"]),
   ("rating", ["rating", "score", "stars", "satisfaction"]),
   ("review_text", ["review_text", "comment", "message", "text", "body", "feedback"])]

/-- `lower = {c.lower(): c for c in df.columns}` followed by `lower[k]`:
a dict comprehension keeps the LAST column whose lowercase form is `k`
(later entries overwrite earlier ones). -/
def lowerLookup : List String → String → Option String
  | [], _ => none
  | c :: cs, k =>
      match lowerLookup cs k with
      | some c2 => some c2
      | none => if strLower c = k then some c else none

/-- The rename entry contributed by one canonical target: skipped when the
exact canonical name is already a column, otherwise the first candidate
alias found among the (lowercased) columns is renamed to the target
(src/app.py lines 71-76). -/
def renameFor (cols : List String) (target : String) (cands : List String) :
    Option (String × String) :=
  if target ∈ cols then none
  else cands.findSome? (fun cand => (lowerLookup cols cand).map (fun c => (c, target)))

/-- The full rename mapping accumulated over the four canonical targets. -/
def buildRename (cols : List String) : List (String × String) :=
  aliasList.filterMap (fun p => renameFor cols p.1 p.2)

/-- `df.rename(columns=rename)` applied to one column name. -/
def applyRename (ren : List (String × String)) (c : String) : String :=
  match ren.lookup c with
  | some t => t
  | none => c

/-- The column list after alias renaming and the default `product` column
synthesis (src/app.py lines 77-80). -/
def normalizeCols (cols : List String) : List String :=
  let renamed := cols.map (applyRename (buildRename cols))
  if "product" ∈ renamed then renamed else renamed ++ ["product"]

/-! ### Negative-slice sorting (src/app.py lines 242-250) -/

/-- Comparison by a key into a linear order; the common shape of all four
sort modes (pandas sorts by the listed keys, descending keys negated). -/
def keyRel {α : Type} {κ : Type} [LinearOrder κ] (f : α → κ) : α → α → Prop :=
  fun a b => f a ≤ f b

instance keyRelDecidable {α κ : Type} [LinearOrder κ] (f : α → κ) :
    DecidableRel (keyRel f) :=
  fun a b => inferInstanceAs (Decidable (f a ≤ f b))

instance keyRelTotal {α κ : Type} [LinearOrder κ] (f : α → κ) : IsTotal α (keyRel f) :=
  ⟨fun a b => le_total (f a) (f b)⟩

instance keyRelTrans {α κ : Type} [LinearOrder κ] (f : α → κ) : IsTrans α (keyRel f) :=
  ⟨fun _ _ _ h1 h2 => le_trans h1 h2⟩

/-- The four sort modes of the negative-comment browser. -/
inductive SortMode where
  | mostRecent
  | lowestRating
  | longestComment
  | highestRating
deriving DecidableEq

/-- The ordering used by each mode (src/app.py lines 242-250):
most recent = `created_at` descending; lowest rating = (`rating` asc,
`created_at` asc); longest comment = (text length desc, `created_at`
desc); highest rating = (`rating` desc, `created_at` desc).  Descending
keys are embedded by negation; multi-key orderings lexicographically. -/
def sortRel : SortMode → Row → Row → Prop
  | .mostRecent => keyRel (fun r => -r.created_at)
  | .lowestRating => keyRel (fun r => toLex (r.rating, r.created_at))
  | .longestComment => keyRel (fun r => toLex (-(r.review_text.length : ℤ), -r.created_at))
  | .highestRating => keyRel (fun r => toLex (-r.rating, -r.created_at))

instance (m : SortMode) : DecidableRel (sortRel m) := by
  cases m <;> exact keyRelDecidable _

instance (m : SortMode) : IsTotal Row (sortRel m) := by
  cases m <;> exact keyRelTotal _

instance (m : SortMode) : IsTrans Row (sortRel m) := by
  cases m <;> exact keyRelTrans _

/-- Stable sort by the mode ordering.  This is a faithful embedding of
`sort_values` only for the three multi-key modes (lowest rating, longest
comment, highest rating), which pandas executes with a stable lexsort.
The single-key most-recent mode uses the default unstable quicksort and is
NOT modelled by this function; see `isSortResult`. -/
def sortRowsStable (m : SortMode) (l : List Row) : List Row :=
  l.insertionSort (sortRel m)

/-- Everything `sort_values` with an unstable kind guarantees about its
output: it is a permutation of the input, sorted by the mode ordering.
The order of rows tied on the sort key is implementation-determined and
not pinned down by this contract — which is all the source promises for
the single-key most-recent sort. -/
def isSortResult (m : SortMode) (l out : List Row) : Prop :=
  List.Perm l out ∧ List.Sorted (sortRel m) out

/-- The Slice stage: the negative mask applied to the canonical table,
projected onto the four canonical columns (the projection is the identity
on `Row`). -/
def negSlice (spec : FilterSpec) (table : List Row) : List Row :=
  table.filter (maskPred spec)

/-- The Slice followed by Sort pipeline, under the stable-sort model of
`sortRowsStable` (faithful for the three multi-key modes). -/
def negPipelineStable (spec : FilterSpec) (m : SortMode) (table : List Row) : List Row :=
  sortRowsStable m (negSlice spec table)

/-! ### Tokenization and keyword summary (src/app.py lines 267-309) -/

/-- The regex character class `[A-Za-z']`. -/
def isWordChar (c : Char) : Bool :=
  (decide ('A' ≤ c) && decide (c ≤ 'Z')) || (decide ('a' ≤ c) && decide (c ≤ 'z')) ||
    c == aposC

/-- Maximal runs of word characters, i.e. `re.findall` of `[A-Za-z']+`.
The first argument is the reversed run currently being accumulated. -/
def tokenRunsAux : List Char → List Char → List (List Char)
  | cur, [] => if cur.isEmpty then [] else [cur.reverse]
  | cur, c :: cs =>
      if isWordChar c then tokenRunsAux (c :: cur) cs
      else if cur.isEmpty then tokenRunsAux [] cs
      else cur.reverse :: tokenRunsAux [] cs

/-- The apostrophe as a one-character string, used to spell the
contraction stop words. -/
def aposS : String := String.mk [aposC]

/-- The stop-word set of src/app.py lines 270-274 (order and duplication
are irrelevant: only membership is ever queried). -/
def STOP : List String :=
  ["a", "an", "the", "and", "or", "but", "if", "then", "this", "that", "to", "of",
   "in", "on", "for", "from", "with", "by", "as", "is", "are", "was", "were", "be",
   "been", "being", "i", "you", "he", "she", "it", "we", "they", "my", "your",
   "our", "their", "me", "us", "them", "not", "no", "yes", "very", "more", "most",
   "less", "least", "so", "too",
   "it" ++ aposS ++ "s", "i" ++ aposS ++ "m", "i" ++ aposS ++ "ve",
   "you" ++ aposS ++ "re", "we" ++ aposS ++ "ll", "can" ++ aposS ++ "t",
   "won" ++ aposS ++ "t", "didn" ++ aposS ++ "t", "don" ++ aposS ++ "t",
   "does", "do", "did", "could", "would", "should"]

/-- `tokenize` of src/app.py lines 276-278: lowercase, split into
`[A-Za-z']+` runs, keep tokens longer than two characters that are not
stop words. -/
def tokenize (s : String) : List String :=
  ((tokenRunsAux [] (lowerL s.data)).map (fun run => String.mk run)).filter
    (fun w => decide (2 < w.length) && !(STOP.contains w))

/-- First-occurrence deduplication with an accumulator of already seen
words; models both the key order of a `Counter` and the per-comment
`set(toks)` (whose aggregate use is order-insensitive). -/
def uniqAux : List String → List String → List String
  | _, [] => []
  | seen, x :: xs =>
      if x ∈ seen then uniqAux seen xs else x :: uniqAux (x :: seen) xs

/-- Distinct words in first-occurrence order. -/
def uniqTokens (l : List String) : List String := uniqAux [] l

/-- The token list of each negative comment, in row order. -/
def tokenLists (rows : List Row) : List (List String) :=
  rows.map (fun r => tokenize r.review_text)

/-- `all_words`: all token occurrences across the negative comments. -/
def allWords (rows : List Row) : List String := (tokenLists rows).flatten

/-- `Counter(all_words)[w]`: total occurrence count of one word. -/
def mentionsCount (rows : List Row) (w : String) : ℕ :=
  (allWords rows).count w

/-- `Counter(all_words).most_common(15)` keys: the distinct words sorted
by occurrence count descending (stably, ties in first-occurrence order,
as `most_common` does), truncated to 15. -/
def topKeywords (rows : List Row) : List String :=
  ((uniqTokens (allWords rows)).insertionSort
    (fun a b => mentionsCount rows b ≤ mentionsCount rows a)).take 15

/-- The (keyword, rating) pairs built from each comment with its own token
multiset deduplicated (src/app.py lines 293-296). -/
def presencePairs (rows : List Row) : List (String × ℚ) :=
  rows.flatMap (fun r =>
    (uniqTokens (tokenize r.review_text)).map (fun t => (t, r.rating)))

/-- Number of comments containing the word: the group size of the
`groupby("keyword")` aggregation. -/
def presenceCount (rows : List Row) (w : String) : ℕ :=
  (presencePairs rows).countP (fun p => p.1 == w)

/-- Sum of the ratings paired with the word, the numerator of the group
mean. -/
def sumRatings (rows : List Row) (w : String) : ℚ :=
  (((presencePairs rows).filter (fun p => p.1 == w)).map Prod.snd).sum

/-- One row of the merged keyword summary table: keyword, mentions (the
occurrence count), the left-joined mean rating and per-comment presence
count (`none` models the NaN a left join produces for a keyword absent
from the statistics table). -/
structure KwEntry where
  keyword : String
  mentions : ℕ
  avg_rating : Option ℚ
  count : Option ℕ
deriving DecidableEq

/-- The merged summary row for one top keyword (the left join of `kw_freq`
with `kw_stats` on the keyword). -/
def kwEntryFor (rows : List Row) (w : String) : KwEntry :=
  let n := presenceCount rows w
  { keyword := w
    mentions := mentionsCount rows w
    avg_rating := if n = 0 then none else some (sumRatings rows w / (n : ℚ))
    count := if n = 0 then none else some n }

/-- The merged summary in `kw_freq` order, before the final ordering. -/
def kwSummaryRaw (rows : List Row) : List KwEntry :=
  (topKeywords rows).map (kwEntryFor rows)

/-- Ordering on possibly-NaN averages: NaN (`none`) sorts last, as pandas
`na_position` defaults to. -/
def avgLeB : Option ℚ → Option ℚ → Bool
  | _, none => true
  | none, some _ => false
  | some a, some b => decide (a ≤ b)

/-- `sort_values(["mentions", "avg_rating"], ascending=[False, True])` as
a pairwise comparison. -/
def sumRelB (e1 e2 : KwEntry) : Bool :=
  decide (e2.mentions < e1.mentions) ||
    (e1.mentions == e2.mentions && avgLeB e1.avg_rating e2.avg_rating)

/-- The keyword summary table as displayed: empty when no meaningful
keyword was extracted (the `if all_words` guard), otherwise the merged
table sorted by mentions descending and average rating ascending. -/
def kwSummary (rows : List Row) : List KwEntry :=
  if allWords rows = [] then []
  else (kwSummaryRaw rows).insertionSort (fun e1 e2 => sumRelB e1 e2 = true)

/-! ### Concrete examples used by the theorems -/

/-- The negative slice of the keyword-pipeline example in the spec:
the comment "Bad service bad" with rating 1 and the comment "bad support"
with rating 2. -/
def exNeg : List Row :=
  [{ created_at := 86400, product := "Support", rating := 1,
     review_text := "Bad service bad" },
   { created_at := 2 * 86400, product := "Support", rating := 2,
     review_text := "bad support" }]

/-- A filter state whose date range ends on day 10. -/
def specD : FilterSpec :=
  { products := [], dates := some (5, 10), negThreshold := 5, keyword := "" }

/-- A row stamped one hour into day 10, the last day of the range of
`specD`. -/
def rowD : Row :=
  { created_at := 10 * 86400 + 3600, product := "Widgets", rating := 2,
    review_text := "slow shipping" }

/-- A filter state with no product and no date restriction and a negative
threshold of 3. -/
def specFull : FilterSpec :=
  { products := [], dates := none, negThreshold := 3, keyword := "" }

/-- A clearly positive row (rating 5). -/
def rowFull : Row :=
  { created_at := 0, product := "Widgets", rating := 5, review_text := "great" }

/-- A negative row (rating 2) used as export witness. -/
def rowC3 : Row :=
  { created_at := 0, product := "Widgets", rating := 2, review_text := "meh" }

/-- A filter state whose date range (days 20 to 30) matches no example
row, giving an empty KPI selection. -/
def specC6 : FilterSpec :=
  { products := [], dates := some (20, 30), negThreshold := 3, keyword := "" }

/-- Two distinct rows tied on `created_at` (both at second 86400): a tie
for the most-recent ordering. -/
def rowT1 : Row :=
  { created_at := 86400, product := "A", rating := 1, review_text := "first" }

/-- The second row of the tie. -/
def rowT2 : Row :=
  { created_at := 86400, product := "B", rating := 2, review_text := "second" }

/-- A fully parsed input row. -/
def prA : ParsedRow :=
  { created_at := some 0, product := "P", rating := some 4, review_text := "good" }

/-- An input row whose date failed to parse. -/
def prB : ParsedRow :=
  { created_at := none, product := "P", rating := some 1, review_text := "late" }

/-! ## Theorems -/

/-- C1 (counterexample): on the spec example slice, the keyword summary
entry for "bad" has mentions = 3, not 2 — `Counter(all_words)` counts
every occurrence, so the duplicated "bad" inside the first comment counts
twice. -/
theorem keyword_mentions_counterexample :
    ((kwSummary exNeg).find? (fun e => e.keyword == "bad")).map KwEntry.mentions =
      some 3 ∧
    ((kwSummary exNeg).find? (fun e => e.keyword == "bad")).map KwEntry.mentions ≠
      some 2 := by
  decide

/-- C1 (amended): on the spec example slice the summary lists "bad" with
mentions = 3 (total occurrence count, within-comment duplicates counting
multiply, as the glossary defines mentions) and avg_rating = 3/2 (the mean
over the two comments containing it, deduplicated per comment), with
presence count 2. -/
theorem keyword_summary_example :
    kwSummary exNeg =
      [{ keyword := "bad", mentions := 3, avg_rating := some (3 / 2), count := some 2 },
       { keyword := "service", mentions := 1, avg_rating := some 1, count := some 1 },
       { keyword := "support", mentions := 1, avg_rating := some 2, count := some 1 }] := by
  decide

/-- C2 (counterexample): the full filtered slice export does not re-apply
the rating-threshold predicate — a rating-5 row is exported although the
negative threshold is 3. -/
theorem full_export_threshold_counterexample :
    rowFull ∈ fullExportRows [rowFull] specFull ∧
    specFull.negThreshold < rowFull.rating := by
  decide

/-- C2 (amended): only the negative-slice export re-applies the
rating-threshold predicate, so every row of that export satisfies
rating ≤ neg_threshold; the full filtered slice is exported with exactly
the product and date predicates, keeping every row passing them regardless
of its rating. -/
theorem export_threshold_amended :
    (∀ (neg : List Row) (th : ℚ), ∀ r ∈ negExportRows neg th, r.rating ≤ th) ∧
    (∀ (table : List Row) (spec : FilterSpec), ∀ r ∈ fullExportRows table spec,
      r ∈ table ∧ productOk spec r = true ∧ dateOkMask spec r = true) ∧
    (∀ (table : List Row) (spec : FilterSpec), ∀ r ∈ table,
      productOk spec r = true → dateOkMask spec r = true →
        r ∈ fullExportRows table spec) := by
  refine ⟨?_, ?_, ?_⟩
  · intro neg th r hr
    exact of_decide_eq_true (List.mem_filter.mp hr).2
  · intro table spec r hr
    have h := List.mem_filter.mp hr
    have h2 := h.2
    rw [Bool.and_eq_true] at h2
    exact ⟨h.1, h2.1, h2.2⟩
  · intro table spec r hr h1 h2
    exact List.mem_filter.mpr ⟨hr, by rw [Bool.and_eq_true]; exact ⟨h1, h2⟩⟩

/-- C2 (witness for the amended theorem at concrete inputs). -/
theorem export_threshold_amended_witness :
    rowC3 ∈ negExportRows [rowC3] 3 ∧ rowC3.rating ≤ 3 ∧
    rowFull ∈ fullExportRows [rowFull] specFull :=
  ⟨by decide, export_threshold_amended.1 [rowC3] 3 rowC3 (by decide),
   export_threshold_amended.2.2 [rowFull] specFull rowFull (by decide) (by decide)
     (by decide)⟩

/-- C3: whatever list of rows the upstream filters produced — consistent
or not — every row of the negative export satisfies
rating ≤ neg_threshold, because the export re-filters by that predicate. -/
theorem neg_export_safe :
    ∀ (neg : List Row) (th : ℚ), ∀ r ∈ negExportRows neg th, r.rating ≤ th := by
  intro neg th r hr
  exact of_decide_eq_true (List.mem_filter.mp hr).2

/-- C3 (witness). -/
theorem neg_export_safe_witness :
    rowFull ∈ negExportRows [rowFull, rowC3] 5 ∧ rowFull.rating ≤ 5 :=
  ⟨by decide, neg_export_safe [rowFull, rowC3] 5 rowFull (by decide)⟩

/-- C4: the two date predicates are not identical at day granularity — a
row stamped one hour into the end day of the range passes the SQL
aggregation clause (day-granular BETWEEN) but fails the pandas mask of the
negative path (whose upper bound is midnight of the end day), although its
rating is within the threshold. -/
theorem date_filter_paths_diverge :
    dateOkSql specD rowD = true ∧ aggPred specD rowD = true ∧
    rowD.rating ≤ specD.negThreshold ∧
    dateOkMask specD rowD = false ∧ maskPred specD rowD = false := by
  decide

/-- C5: the keyword predicate interprets the keyword as a regular
expression, not as a plain substring — the keyword "a.c" matches the text
"abc" through the code path although "abc" does not contain "a.c" as a
substring. -/
theorem keyword_regex_divergence :
    keywordOk "a.c" "abc" = true ∧ substrContainsCI "a.c" "abc" = false := by
  decide

/-- C6: on an empty selection the KPI query returns count 0 and a NULL
average (no division error is raised), and the displayed average is the
NULL-derived value, not 0.0 — the `else 0.0` fallback is keyed on
emptiness of the one-row aggregate result set and never fires. -/
theorem kpi_empty_selection :
    kpiQuery [rowD] specC6 = [(0, none)] ∧
    displayedTotal [rowD] specC6 = 0 ∧
    displayedAvg [rowD] specC6 = none ∧
    displayedAvg [rowD] specC6 ≠ some 0 := by
  decide

/-- C9: every row retained by the normalizer has a non-null parsed
timestamp and a non-null numeric rating; rows with a null in either field
are silently absent from the output; the output is never longer than the
input. -/
theorem load_drops_unparseable :
    ∀ (l : List ParsedRow),
      (∀ r ∈ dropUnusable l, r.created_at.isSome ∧ r.rating.isSome) ∧
      (∀ r ∈ l, r.created_at = none ∨ r.rating = none → r ∉ dropUnusable l) ∧
      (dropUnusable l).length ≤ l.length := by
  intro l
  refine ⟨?_, ?_, List.length_filter_le _ _⟩
  · intro r hr
    have h := (List.mem_filter.mp hr).2
    rw [Bool.and_eq_true] at h
    exact ⟨h.1, h.2⟩
  · intro r _ hbad hmem
    have h := (List.mem_filter.mp hmem).2
    rw [Bool.and_eq_true] at h
    rcases hbad with h1 | h1
    · rw [h1] at h
      exact absurd h.1 (by simp)
    · rw [h1] at h
      exact absurd h.2 (by simp)

/-- Under the stable-sort model the pipeline is idempotent for every mode:
re-filtering keeps every row of the output and a stable sort of a sorted
list is the identity.  This models the program faithfully only for the
three multi-key modes, whose lexsort is stable. -/
theorem stable_pipeline_idem (m : SortMode) (spec : FilterSpec) (table : List Row) :
    negPipelineStable spec m (negPipelineStable spec m table) =
      negPipelineStable spec m table := by
  unfold negPipelineStable negSlice sortRowsStable
  have hf :
      List.filter (maskPred spec)
          (List.insertionSort (sortRel m) (List.filter (maskPred spec) table)) =
        List.insertionSort (sortRel m) (List.filter (maskPred spec) table) := by
    apply List.filter_eq_self.mpr
    intro a ha
    exact (List.mem_filter.mp ((List.mem_insertionSort (sortRel m)).mp ha)).2
  rw [hf]
  exact List.Sorted.insertionSort_eq (List.sorted_insertionSort (sortRel m) _)

/-- C7 (code_bug evaluation): the three multi-key sort modes are stable
lexsorts, and for them the Slice→Sort pipeline is idempotent; every mode
ordering is total.  But the most-recent mode is a single-key sort executed
with the pandas default quicksort, which is not stable, and its contract
(`isSortResult`, a sorted permutation) does not determine the output on
rows tied on `created_at`: both orders of the tied rows `rowT1`, `rowT2`
satisfy it.  So the stability and re-sort idempotence the claim asserts
for most_recent are not guaranteed by the code. -/
theorem most_recent_sort_underdetermined :
    (∀ (spec : FilterSpec) (table : List Row),
      negPipelineStable spec SortMode.lowestRating
          (negPipelineStable spec SortMode.lowestRating table) =
        negPipelineStable spec SortMode.lowestRating table) ∧
    (∀ (spec : FilterSpec) (table : List Row),
      negPipelineStable spec SortMode.longestComment
          (negPipelineStable spec SortMode.longestComment table) =
        negPipelineStable spec SortMode.longestComment table) ∧
    (∀ (spec : FilterSpec) (table : List Row),
      negPipelineStable spec SortMode.highestRating
          (negPipelineStable spec SortMode.highestRating table) =
        negPipelineStable spec SortMode.highestRating table) ∧
    (∀ (m : SortMode) (a b : Row), sortRel m a b ∨ sortRel m b a) ∧
    (rowT1 ≠ rowT2 ∧ sortRel SortMode.mostRecent rowT1 rowT2 ∧
      sortRel SortMode.mostRecent rowT2 rowT1) ∧
    (isSortResult SortMode.mostRecent [rowT1, rowT2] [rowT1, rowT2] ∧
      isSortResult SortMode.mostRecent [rowT1, rowT2] [rowT2, rowT1] ∧
      ([rowT1, rowT2] : List Row) ≠ [rowT2, rowT1]) := by
  refine ⟨fun spec table => stable_pipeline_idem _ spec table,
    fun spec table => stable_pipeline_idem _ spec table,
    fun spec table => stable_pipeline_idem _ spec table,
    fun m a b => total_of (sortRel m) a b, ⟨by decide, by decide, by decide⟩,
    ⟨List.Perm.refl _, ?_⟩, ⟨?_, ?_⟩, by decide⟩
  · rw [List.sorted_cons]
    refine ⟨?_, List.sorted_singleton _⟩
    intro b hb
    rw [List.mem_singleton.mp hb]
    decide
  · exact List.Perm.swap rowT2 rowT1 []
  · rw [List.sorted_cons]
    refine ⟨?_, List.sorted_singleton _⟩
    intro b hb
    rw [List.mem_singleton.mp hb]
    decide

/-- Soundness of the lowercase column lookup: a hit is a column whose
lowercase form is the requested key. -/
theorem lowerLookup_sound :
    ∀ (cols : List String) (k c : String),
      lowerLookup cols k = some c → c ∈ cols ∧ strLower c = k := by
  intro cols
  induction cols with
  | nil =>
      intro k c h
      exact absurd h (by simp [lowerLookup])
  | cons a as ih =>
      intro k c h
      cases hrec : lowerLookup as k with
      | some c2 =>
          have hstep : lowerLookup (a :: as) k = some c2 := by
            simp [lowerLookup, hrec]
          rw [hstep] at h
          injection h with h1
          subst h1
          exact ⟨List.mem_cons_of_mem _ (ih _ _ hrec).1, (ih _ _ hrec).2⟩
      | none =>
          have hstep :
              lowerLookup (a :: as) k = if strLower a = k then some a else none := by
            simp [lowerLookup, hrec]
          rw [hstep] at h
          by_cases hak : strLower a = k
          · rw [if_pos hak] at h
            injection h with h1
            subst h1
            exact ⟨List.mem_cons_self _ _, hak⟩
          · rw [if_neg hak] at h
            exact absurd h (by simp)

/-- Completeness of the lowercase column lookup: if some column lowers to
the key, the lookup hits. -/
theorem lowerLookup_complete :
    ∀ (cols : List String) (k c : String),
      c ∈ cols → strLower c = k → ∃ c2, lowerLookup cols k = some c2 := by
  intro cols
  induction cols with
  | nil =>
      intro k c h
      exact absurd h (List.not_mem_nil c)
  | cons a as ih =>
      intro k c hmem hlow
      cases hrec : lowerLookup as k with
      | some c2 =>
          exact ⟨c2, by simp [lowerLookup, hrec]⟩
      | none =>
          rcases List.mem_cons.mp hmem with rfl | htail
          · exact ⟨c, by simp [lowerLookup, hrec, hlow]⟩
          · rcases ih k c htail hlow with ⟨c2, hc2⟩
            rw [hc2] at hrec
            exact absurd hrec (by simp)

/-- A `findSome?` whose every possible hit is the same value, and which
has at least one hit, returns that value. -/
theorem findSome?_eq_some_of {α β : Type} (l : List α) (f : α → Option β) (v : β)
    (hall : ∀ x ∈ l, ∀ y, f x = some y → y = v)
    (hex : ∃ x ∈ l, (f x).isSome) : l.findSome? f = some v := by
  induction l with
  | nil =>
      rcases hex with ⟨x, hx, _⟩
      exact absurd hx (List.not_mem_nil x)
  | cons a as ih =>
      cases hfa : f a with
      | some b =>
          rw [List.findSome?_cons, hfa]
          exact congrArg some (hall a (List.mem_cons_self _ _) b hfa)
      | none =>
          rw [List.findSome?_cons, hfa]
          apply ih
          · intro x hx
            exact hall x (List.mem_cons_of_mem _ hx)
          · rcases hex with ⟨x, hx, hsome⟩
            rcases List.mem_cons.mp hx with rfl | hx2
            · rw [hfa] at hsome
              exact absurd hsome (by simp)
            · exact ⟨x, hx2, hsome⟩

/-- A successful `findSome?` comes from some element of the list. -/
theorem findSome?_sound {α β : Type} (l : List α) (f : α → Option β) (v : β) :
    l.findSome? f = some v → ∃ x ∈ l, f x = some v := by
  induction l with
  | nil =>
      intro h
      exact absurd h (by simp)
  | cons a as ih =>
      intro h
      rw [List.findSome?_cons] at h
      cases hfa : f a with
      | some b =>
          rw [hfa] at h
          have h2 : some b = some v := h
          exact ⟨a, List.mem_cons_self _ _, by rw [hfa]; exact h2⟩
      | none =>
          rw [hfa] at h
          have h2 : List.findSome? f as = some v := h
          rcases ih h2 with ⟨x, hx, hfx⟩
          exact ⟨x, List.mem_cons_of_mem _ hx, hfx⟩

/-- Under the unique-matching-alias hypothesis, the rename entry of one
target resolves to exactly the matching column. -/
theorem renameFor_eq (cols : List String) (target : String) (cands : List String)
    (c : String) (habs : target ∉ cols) (hmem : c ∈ cols)
    (hcand : strLower c ∈ cands) (huniq : ∀ d ∈ cols, strLower d ∈ cands → d = c) :
    renameFor cols target cands = some (c, target) := by
  unfold renameFor
  rw [if_neg habs]
  apply findSome?_eq_some_of
  · intro cand hcm y hy
    cases hl : lowerLookup cols cand with
    | none =>
        rw [hl] at hy
        exact absurd hy (by simp)
    | some d =>
        rw [hl] at hy
        have hd := lowerLookup_sound cols cand d hl
        have hdc : d = c := huniq d hd.1 (by rw [hd.2]; exact hcm)
        simp only [Option.map_some', Option.some.injEq] at hy
        rw [← hy, hdc]
  · refine ⟨strLower c, hcand, ?_⟩
    rcases lowerLookup_complete cols (strLower c) c hmem rfl with ⟨c2, hc2⟩
    simp [hc2]

/-- What a successful rename entry tells us: the value is the target, the
target was absent from the columns, and the key is a column lowering to
one of the candidate aliases. -/
theorem renameFor_sound (cols : List String) (target : String) (cands : List String)
    (c2 t2 : String) (h : renameFor cols target cands = some (c2, t2)) :
    t2 = target ∧ target ∉ cols ∧ c2 ∈ cols ∧ strLower c2 ∈ cands := by
  unfold renameFor at h
  by_cases habs : target ∈ cols
  · rw [if_pos habs] at h
    exact absurd h (by simp)
  · rw [if_neg habs] at h
    rcases findSome?_sound _ _ _ h with ⟨cand, hcand, hy⟩
    cases hl : lowerLookup cols cand with
    | none =>
        rw [hl] at hy
        exact absurd hy (by simp)
    | some d =>
        rw [hl] at hy
        simp only [Option.map_some', Option.some.injEq, Prod.mk.injEq] at hy
        have hd := lowerLookup_sound cols cand d hl
        refine ⟨hy.2.symm, habs, ?_, ?_⟩
        · rw [← hy.1]
          exact hd.1
        · rw [← hy.1, hd.2]
          exact hcand

/-- Every pair of the accumulated rename map comes from some alias entry. -/
theorem buildRename_mem (cols : List String) (p : String × String)
    (h : p ∈ buildRename cols) :
    ∃ q ∈ aliasList, renameFor cols q.1 q.2 = some p := by
  unfold buildRename at h
  exact List.mem_filterMap.mp h

/-- The candidate alias sets of distinct canonical targets are disjoint. -/
theorem aliasDisjoint :
    ∀ p ∈ aliasList, ∀ q ∈ aliasList, ∀ k, k ∈ p.2 → k ∈ q.2 → p = q := by
  decide

/-- A successful association lookup returns a pair of the list. -/
theorem lookup_eq_some_mem {β : Type} (l : List (String × β)) (k : String) (v : β)
    (h : l.lookup k = some v) : (k, v) ∈ l := by
  induction l with
  | nil =>
      exact absurd h (by simp [List.lookup])
  | cons p ps ih =>
      rw [List.lookup_cons] at h
      cases hk : (k == p.1) with
      | true =>
          rw [hk] at h
          have h2 : some p.2 = some v := h
          injection h2 with h1
          have hkv : (k, v) = p := by
            rw [Prod.ext_iff]
            exact ⟨eq_of_beq hk, h1.symm⟩
          rw [hkv]
          exact List.mem_cons_self _ _
      | false =>
          rw [hk] at h
          have h2 : List.lookup k ps = some v := h
          exact List.mem_cons_of_mem _ (ih h2)

/-- A key appearing in an association list has a successful lookup. -/
theorem lookup_isSome_of_mem {β : Type} (l : List (String × β)) (k : String) (v : β)
    (h : (k, v) ∈ l) : ∃ w, l.lookup k = some w := by
  induction l with
  | nil =>
      exact absurd h (List.not_mem_nil _)
  | cons p ps ih =>
      rw [List.lookup_cons]
      cases hk : (k == p.1) with
      | true =>
          exact ⟨p.2, rfl⟩
      | false =>
          rcases List.mem_cons.mp h with heq | htail
          · rw [← heq] at hk
            simp at hk
          · exact ih htail

/-- What membership of a pair in the rename map implies about its parts. -/
theorem buildRename_value (cols : List String) (c2 t2 : String)
    (h : (c2, t2) ∈ buildRename cols) :
    t2 ∉ cols ∧ c2 ∈ cols ∧ ∃ q ∈ aliasList, t2 = q.1 ∧ strLower c2 ∈ q.2 := by
  rcases buildRename_mem cols _ h with ⟨q, hq, hren⟩
  rcases renameFor_sound cols q.1 q.2 c2 t2 hren with ⟨ht2, habs, hc2, hcand⟩
  exact ⟨ht2 ▸ habs, hc2, q, hq, ht2, hcand⟩

/-- C8: if a canonical field is present only through a unique alias
column, normalization produces the canonical column name and removes the
alias name; and whenever the canonical name itself is already a column, no
alias substitution targets that field (exact name wins). -/
theorem normalize_alias_resolution :
    (∀ (cols : List String) (target : String) (cands : List String) (c : String),
      (target, cands) ∈ aliasList → target ∉ cols → c ∈ cols → strLower c ∈ cands →
      (∀ d ∈ cols, strLower d ∈ cands → d = c) →
      target ∈ normalizeCols cols ∧ c ∉ normalizeCols cols) ∧
    (∀ (cols : List String) (target : String), target ∈ cols →
      ∀ p ∈ buildRename cols, p.2 ≠ target) := by
  constructor
  · intro cols target cands c htarget habs hmem hcand huniq
    have hc_ne_target : c ≠ target := fun h => habs (h ▸ hmem)
    have hren : renameFor cols target cands = some (c, target) :=
      renameFor_eq cols target cands c habs hmem hcand huniq
    have hpair : (c, target) ∈ buildRename cols := by
      unfold buildRename
      exact List.mem_filterMap.mpr ⟨(target, cands), htarget, hren⟩
    have hckey : ∀ w, (c, w) ∈ buildRename cols → w = target := by
      intro w hw
      rcases buildRename_mem cols _ hw with ⟨q, hq, hrenq⟩
      rcases renameFor_sound cols q.1 q.2 c w hrenq with ⟨hw2, _, _, hcq⟩
      have : q = (target, cands) := aliasDisjoint q hq (target, cands) htarget
        (strLower c) hcq hcand
      rw [hw2, this]
    have hlook : (buildRename cols).lookup c = some target := by
      rcases lookup_isSome_of_mem _ c target hpair with ⟨w, hw⟩
      have := hckey w (lookup_eq_some_mem _ c w hw)
      rw [← this]
      exact hw
    have happly : applyRename (buildRename cols) c = target := by
      unfold applyRename
      rw [hlook]
    constructor
    · have hmemmap : target ∈ cols.map (applyRename (buildRename cols)) :=
        List.mem_map.mpr ⟨c, hmem, happly⟩
      unfold normalizeCols
      by_cases hp : "product" ∈ cols.map (applyRename (buildRename cols))
      · rw [if_pos hp]
        exact hmemmap
      · rw [if_neg hp]
        exact List.mem_append_left _ hmemmap
    · intro hcontra
      have hc_ne_prod : c ≠ "product" := by
        intro hcp
        have hq1 :
            ("product", ["product", "category", "service", "queue", "team"]) ∈
              aliasList := by decide
        have heq :
            (target, cands) =
              ("product", ["product", "category", "service", "queue", "team"]) := by
          apply aliasDisjoint (target, cands) htarget _ hq1 (strLower c) hcand
          rw [hcp]
          decide
        have htp : target = "product" := congrArg Prod.fst heq
        exact hc_ne_target (hcp.trans htp.symm)
      have hcmem : c ∈ cols.map (applyRename (buildRename cols)) := by
        unfold normalizeCols at hcontra
        by_cases hp : "product" ∈ cols.map (applyRename (buildRename cols))
        · rw [if_pos hp] at hcontra
          exact hcontra
        · rw [if_neg hp] at hcontra
          rcases List.mem_append.mp hcontra with h1 | h1
          · exact h1
          · rcases List.mem_cons.mp h1 with h2 | h2
            · exact absurd h2 hc_ne_prod
            · exact absurd h2 (List.not_mem_nil c)
      rcases List.mem_map.mp hcmem with ⟨d, hd, hdc⟩
      unfold applyRename at hdc
      cases hl : (buildRename cols).lookup d with
      | none =>
          rw [hl] at hdc
          have hdc2 : d = c := hdc
          rw [hdc2, hlook] at hl
          exact absurd hl (by simp)
      | some w =>
          rw [hl] at hdc
          have hdc2 : w = c := hdc
          have hdw := lookup_eq_some_mem _ d w hl
          have hval := buildRename_value cols d w hdw
          rw [hdc2] at hval
          exact hval.1 hmem
  · intro cols target hmem p hp htv
    have hval := buildRename_value cols p.1 p.2 (by
      have : (p.1, p.2) = p := rfl
      rw [this]
      exact hp)
    rw [htv] at hval
    exact hval.1 hmem

/-- C8 (witness): a table with columns date, score, comment — after
normalization the rating column exists and score does not; and a rename
map for columns already containing the canonical name has no entry
targeting it. -/
theorem normalize_alias_resolution_witness :
    "rating" ∈ normalizeCols ["date", "score", "comment"] ∧
    "score" ∉ normalizeCols ["date", "score", "comment"] :=
  normalize_alias_resolution.1 ["date", "score", "comment"] "rating"
    ["rating", "score", "stars", "satisfaction"] "score" (by decide) (by decide)
    (by decide) (by decide) (by decide)

/-- Membership in the deduplicated list: present in the input and not in
the seen accumulator. -/
theorem mem_uniqAux :
    ∀ (l seen : List String) (x : String),
      x ∈ uniqAux seen l ↔ x ∈ l ∧ x ∉ seen := by
  intro l
  induction l with
  | nil =>
      intro seen x
      simp [uniqAux]
  | cons a as ih =>
      intro seen x
      by_cases ha : a ∈ seen
      · rw [show uniqAux seen (a :: as) = uniqAux seen as from by simp [uniqAux, ha]]
        rw [ih seen x]
        constructor
        · rintro ⟨h1, h2⟩
          exact ⟨List.mem_cons_of_mem _ h1, h2⟩
        · rintro ⟨h1, h2⟩
          rcases List.mem_cons.mp h1 with rfl | h3
          · exact absurd ha h2
          · exact ⟨h3, h2⟩
      · rw [show uniqAux seen (a :: as) = a :: uniqAux (a :: seen) as from by
          simp [uniqAux, ha]]
        constructor
        · intro h
          rcases List.mem_cons.mp h with rfl | h3
          · exact ⟨List.mem_cons_self _ _, ha⟩
          · have h4 := (ih (a :: seen) x).mp h3
            exact ⟨List.mem_cons_of_mem _ h4.1,
              fun hx => h4.2 (List.mem_cons_of_mem _ hx)⟩
        · rintro ⟨h1, h2⟩
          rcases List.mem_cons.mp h1 with rfl | h3
          · exact List.mem_cons_self _ _
          · by_cases hxa : x = a
            · rw [hxa]
              exact List.mem_cons_self _ _
            · refine List.mem_cons_of_mem _ ((ih (a :: seen) x).mpr ⟨h3, ?_⟩)
              intro hx
              rcases List.mem_cons.mp hx with h5 | h5
              · exact hxa h5
              · exact h2 h5

/-- Membership in the deduplicated word list is membership in the input. -/
theorem mem_uniqTokens (l : List String) (x : String) :
    x ∈ uniqTokens l ↔ x ∈ l := by
  rw [uniqTokens, mem_uniqAux]
  simp

/-- The deduplicated list holds each word at most once. -/
theorem countP_uniqAux_le_one :
    ∀ (l seen : List String) (w : String),
      (uniqAux seen l).countP (fun t => t == w) ≤ 1 := by
  intro l
  induction l with
  | nil =>
      intro seen w
      simp [uniqAux]
  | cons a as ih =>
      intro seen w
      by_cases ha : a ∈ seen
      · rw [show uniqAux seen (a :: as) = uniqAux seen as from by simp [uniqAux, ha]]
        exact ih seen w
      · rw [show uniqAux seen (a :: as) = a :: uniqAux (a :: seen) as from by
          simp [uniqAux, ha]]
        rw [List.countP_cons]
        by_cases haw : a == w
        · rw [if_pos haw]
          have hzero : (uniqAux (a :: seen) as).countP (fun t => t == w) = 0 := by
            apply List.countP_eq_zero.mpr
            intro x hx hxw
            have hxmem := (mem_uniqAux as (a :: seen) x).mp hx
            apply hxmem.2
            rw [eq_of_beq hxw, ← eq_of_beq haw]
            exact List.mem_cons_self _ _
          rw [hzero]
        · rw [if_neg haw, Nat.add_zero]
          exact ih (a :: seen) w

/-- The per-comment presence count never exceeds the occurrence count:
each comment contributes at most one presence pair for a word, but at
least one occurrence whenever it contributes a pair. -/
theorem presence_le_mentions :
    ∀ (rows : List Row) (w : String), presenceCount rows w ≤ mentionsCount rows w := by
  intro rows w
  induction rows with
  | nil =>
      simp [presenceCount, presencePairs, mentionsCount, allWords, tokenLists]
  | cons r rs ih =>
      have hstep1 :
          presencePairs (r :: rs) =
            (uniqTokens (tokenize r.review_text)).map (fun t => (t, r.rating)) ++
              presencePairs rs := by
        simp [presencePairs]
      have hstep2 : allWords (r :: rs) = tokenize r.review_text ++ allWords rs := by
        simp [allWords, tokenLists]
      rw [presenceCount, hstep1, List.countP_append, mentionsCount, hstep2,
        List.count_append]
      apply Nat.add_le_add _ ih
      rw [List.countP_map]
      have hcomp :
          ((fun p : String × ℚ => p.1 == w) ∘ fun t => (t, r.rating)) =
            fun t => t == w := rfl
      rw [hcomp]
      by_cases hw : w ∈ tokenize r.review_text
      · have h1 : (uniqTokens (tokenize r.review_text)).countP (fun t => t == w) ≤ 1 :=
          countP_uniqAux_le_one _ [] w
        have h2 : 0 < (tokenize r.review_text).count w := List.count_pos_iff.mpr hw
        exact le_trans h1 h2
      · have hzero :
            (uniqTokens (tokenize r.review_text)).countP (fun t => t == w) = 0 := by
          apply List.countP_eq_zero.mpr
          intro x hx hxw
          exact hw (eq_of_beq hxw ▸ (mem_uniqTokens _ x).mp hx)
        rw [hzero]
        exact Nat.zero_le _

/-- C10: every row of the merged keyword summary of a non-empty negative
slice has a non-null average rating, and its per-comment presence count is
at most its mentions count — every top keyword occurs in at least one
comment, so the left join always finds its statistics row. -/
theorem kw_summary_invariant :
    ∀ (rows : List Row), rows ≠ [] → ∀ e ∈ kwSummary rows,
      e.avg_rating.isSome ∧ ∃ n, e.count = some n ∧ n ≤ e.mentions := by
  intro rows _ e he
  unfold kwSummary at he
  by_cases hempty : allWords rows = []
  · rw [if_pos hempty] at he
    exact absurd he (List.not_mem_nil e)
  · rw [if_neg hempty] at he
    have he2 : e ∈ kwSummaryRaw rows := (List.mem_insertionSort _).mp he
    rcases List.mem_map.mp he2 with ⟨w, hw, rfl⟩
    have hwuniq : w ∈ uniqTokens (allWords rows) :=
      (List.mem_insertionSort _).mp (List.take_subset _ _ hw)
    have hwmem : w ∈ allWords rows := (mem_uniqTokens _ w).mp hwuniq
    have hpos : 0 < presenceCount rows w := by
      rw [allWords] at hwmem
      obtain ⟨l, hl, hwl⟩ := List.mem_flatten.mp hwmem
      obtain ⟨r, hr, rfl⟩ := List.mem_map.mp hl
      apply List.countP_pos_iff.mpr
      refine ⟨(w, r.rating), ?_, by simp⟩
      apply List.mem_flatMap.mpr
      exact ⟨r, hr, List.mem_map.mpr ⟨w, (mem_uniqTokens _ w).mpr hwl, rfl⟩⟩
    have hn : presenceCount rows w ≠ 0 := Nat.pos_iff_ne_zero.mp hpos
    refine ⟨?_, presenceCount rows w, ?_, ?_⟩
    · show (kwEntryFor rows w).avg_rating.isSome
      rw [kwEntryFor]
      simp [hn]
    · show (kwEntryFor rows w).count = some (presenceCount rows w)
      rw [kwEntryFor]
      simp [hn]
    · show presenceCount rows w ≤ (kwEntryFor rows w).mentions
      rw [kwEntryFor]
      exact presence_le_mentions rows w

/-- C10 (witness): the summary entry for "bad" on the example slice. -/
theorem kw_summary_invariant_witness :
    (kwEntryFor exNeg "bad").avg_rating.isSome ∧
    ∃ n, (kwEntryFor exNeg "bad").count = some n ∧
      n ≤ (kwEntryFor exNeg "bad").mentions :=
  kw_summary_invariant exNeg (by decide) (kwEntryFor exNeg "bad") (by decide)

/-- C9 (witness). -/
theorem load_drops_unparseable_witness :
    (prA.created_at.isSome ∧ prA.rating.isSome) ∧
    prB ∉ dropUnusable [prA, prB] ∧
    (dropUnusable [prA, prB]).length ≤ 2 :=
  ⟨(load_drops_unparseable [prA, prB]).1 prA (by decide),
   (load_drops_unparseable [prA, prB]).2.1 prB (by decide) (Or.inl rfl),
   (load_drops_unparseable [prA, prB]).2.2⟩

end CFI
